import Mathlib

set_option maxRecDepth 100000

/-!
Verification of the vaulty secrets-vault core against its specification.

The development shallowly embeds the Rust sources of the repository:

  * `src/source/vault/src/secrets.rs`   - the AES-256-GCM + block-chained
    RSA-PKCS#1-v1.5 secret envelope (`encrypt` / `decrypt`);
  * `src/source/vault/src/vault/mod.rs` - the data-plane authorization engine
    (`access_check`);
  * `src/source/vault/src/db/{vault,secret,access}.rs` - the transactional KV
    data model (vault counters, purge);
  * `src/source/vault/src/vault/{get,insert,delete,list}.rs` - the data-plane
    HTTP handlers (status codes and the constant-time delay discipline);
  * the size constants of `src/source/cli/src/cmd/secret/insert.rs` and
    `src/source/vault/src/api.rs`.

Byte strings are `List Nat` (each element a byte value).  External
cryptographic primitives (AES-GCM, RSA-PKCS#1 v1.5, ECDSA-P256) are modelled
symbolically, keeping exactly the interface facts the code relies on: output
lengths, the PKCS#1 v1.5 length bound for a 4096-bit modulus, authenticated
decryption, and ideal signature verification.  Everything else is translated
directly from the Rust sources.
-/

namespace Vaulty

/-- Byte strings, one `Nat` per byte. -/
abbrev Bytes := List Nat

/-! ### Model of the external AES-256-GCM primitive

`secrets.rs` calls `aes_gcm::Aes256Gcm` with the fixed 32-byte key and the
fixed 12-byte nonce loaded at startup.  AES-GCM ciphertext is the encrypted
payload followed by a 16-byte authentication tag; since key and nonce are
fixed for the process lifetime, encryption is a deterministic injective
function and the keystream XOR is a length-preserving bijection that we take
as the identity (confidentiality is not among the verified claims).  The tag
is modelled as an arbitrary 16-byte function of the payload; authenticated
decryption recomputes and checks it. -/

/-- Model of the 16-byte GCM authentication tag over the payload. -/
def gcmTag (p : Bytes) : Bytes :=
  List.replicate 16 ((p.length + p.sum) % 256)

/-- `aes_encrypt` of `secrets.rs`: AES-256-GCM under the configured key and
nonce.  Ciphertext = payload ++ 16-byte tag. -/
def aes_encrypt (p : Bytes) : Bytes := p ++ gcmTag p

/-- `aes_decrypt` of `secrets.rs`: AES-256-GCM open; fails (`none`) unless the
trailing 16-byte tag authenticates the payload. -/
def aes_decrypt (c : Bytes) : Option Bytes :=
  if 16 ≤ c.length then
    if c.drop (c.length - 16) = gcmTag (c.take (c.length - 16)) then
      some (c.take (c.length - 16))
    else none
  else none

/-! ### Model of the external RSA-PKCS#1 v1.5 primitive

`secrets.rs` uses `rsa::Pkcs1v15Encrypt` with `const BLOCK_SIZE: usize = 512`
and its error messages name "RSA 4096": the modulus is k = 512 bytes (also
forced by `rsa_decrypt`, which splits the ciphertext into 512-byte blocks).
PKCS#1 v1.5 (RFC 8017) encrypts a message of mLen ≤ k - 11 = 501 bytes into a
k-byte block `00 02 PS 00 M`; longer messages are rejected by the library
("message too long").  We model the padding string PS as all `1` bytes (the
real PS is random and nonzero; the claims under verification do not depend on
its value), which makes the primitive a concrete injective function. -/

/-- Model of RSA-PKCS#1-v1.5-Encrypt under the 4096-bit public key: messages
of at most 501 bytes map to a 512-byte block; longer messages fail. -/
def rsaEncryptBlock (m : Bytes) : Option Bytes :=
  if m.length + 11 ≤ 512 then
    some (0 :: 2 :: (List.replicate (509 - m.length) 1 ++ 0 :: m))
  else none

/-- Model of RSA-PKCS#1-v1.5-Decrypt under the matching private key: checks
the `00 02` header, strips the padding string up to the zero separator. -/
def rsaDecryptBlock (b : Bytes) : Option Bytes :=
  if b.length = 512 ∧ b.take 2 = [0, 2] then
    some (((b.drop 2).dropWhile (fun x => x != 0)).drop 1)
  else none

/-! ### The block-chaining loops of `rsa_encrypt` / `rsa_decrypt`

`rsa_encrypt` (secrets.rs:220-262): if `plain_len > 512` it runs
`while idx + 512 <= plain_len`, RSA-encrypting each full 512-byte block and
appending the ciphertexts; the loop then simply ends, so a trailing partial
block is never encrypted.  Otherwise the whole input is encrypted as one
block.  `rsa_decrypt` (secrets.rs:166-217) rejects inputs whose length is not
a multiple of 512, then decrypts 512-byte blocks the same way.  The loops are
embedded with an explicit fuel argument (one byte of fuel per input byte, and
each iteration consumes 512 bytes) so that the definitions compute by
reduction. -/

/-- The `while idx + 512 <= plain_len` loop of `rsa_encrypt`: encrypt the full
512-byte blocks in order and concatenate; any trailing remainder shorter than
512 bytes is left behind when the loop exits. -/
def rsaEncryptFullBlocks : Nat → Bytes → Option Bytes
  | 0, _ => some []
  | fuel + 1, l =>
    if 512 ≤ l.length then
      (rsaEncryptBlock (l.take 512)).bind fun c =>
        (rsaEncryptFullBlocks fuel (l.drop 512)).map fun rest => c ++ rest
    else some []

/-- `rsa_encrypt` of `secrets.rs`: block-chained RSA over the input. -/
def rsa_encrypt (plain : Bytes) : Option Bytes :=
  if 512 < plain.length then rsaEncryptFullBlocks plain.length plain
  else rsaEncryptBlock plain

/-- The sequence of blocks the `rsa_encrypt` loop feeds to the RSA primitive:
for inputs over 512 bytes, the full 512-byte chunks in order (the partial
remainder is not among them); otherwise the whole input as one block.  This
is the block-forming part of `rsa_encrypt`, split out so that coverage of the
input bytes can be stated. -/
def rsaFullChunks : Nat → Bytes → List Bytes
  | 0, _ => []
  | fuel + 1, l =>
    if 512 ≤ l.length then l.take 512 :: rsaFullChunks fuel (l.drop 512)
    else []

/-- The blocks submitted to RSA by `rsa_encrypt` on a given input. -/
def rsaEncBlocks (plain : Bytes) : List Bytes :=
  if 512 < plain.length then rsaFullChunks plain.length plain
  else [plain]

/-- The decryption loop of `rsa_decrypt` over full 512-byte blocks. -/
def rsaDecryptFullBlocks : Nat → Bytes → Option Bytes
  | 0, _ => some []
  | fuel + 1, l =>
    if 512 ≤ l.length then
      (rsaDecryptBlock (l.take 512)).bind fun c =>
        (rsaDecryptFullBlocks fuel (l.drop 512)).map fun rest => c ++ rest
    else some []

/-- `rsa_decrypt` of `secrets.rs`: requires the length to be a multiple of
512, then decrypts block-wise. -/
def rsa_decrypt (c : Bytes) : Option Bytes :=
  if c.length % 512 > 0 then none
  else if 512 < c.length then rsaDecryptFullBlocks c.length c
  else rsaDecryptBlock c

/-- `encrypt` of `secrets.rs` (lines 320-332): reject empty input, AES-GCM,
then block-chained RSA. -/
def encrypt (plain : Bytes) : Option Bytes :=
  if plain = [] then none
  else rsa_encrypt (aes_encrypt plain)

/-- `decrypt` of `secrets.rs` (lines 306-318): reject empty input, undo the
RSA chain, then AES-GCM-decrypt. -/
def decrypt (encrypted : Bytes) : Option Bytes :=
  if encrypted = [] then none
  else (rsa_decrypt encrypted).bind aes_decrypt

/-! ### Round-trip facts about the envelope -/

/-- Dropping the all-ones padding string finds the zero separator. -/
theorem dropWhile_replicate_one (k : Nat) (m : Bytes) :
    (List.replicate k 1 ++ 0 :: m).dropWhile (fun x => x != 0) = 0 :: m := by
  induction k with
  | zero => simp [List.dropWhile]
  | succ k ih => simpa [List.replicate_succ, List.dropWhile] using ih

/-- The RSA block primitive round-trips on messages within the PKCS#1 v1.5
length bound. -/
theorem rsaBlock_roundtrip (m : Bytes) (h : m.length + 11 ≤ 512) :
    (rsaEncryptBlock m).bind rsaDecryptBlock = some m := by
  have hlen : (0 :: 2 :: (List.replicate (509 - m.length) 1 ++ 0 :: m)).length = 512 := by
    simp [List.length_replicate]
    omega
  rw [rsaEncryptBlock, if_pos h]
  show rsaDecryptBlock _ = some m
  rw [rsaDecryptBlock, if_pos ⟨hlen, rfl⟩]
  simp [dropWhile_replicate_one]

/-- AES-GCM round-trips. -/
theorem aes_roundtrip (p : Bytes) : aes_decrypt (aes_encrypt p) = some p := by
  have hlen : (aes_encrypt p).length = p.length + 16 := by
    simp [aes_encrypt, gcmTag]
  have htake : (aes_encrypt p).take p.length = p := by
    simpa [aes_encrypt, gcmTag] using List.take_left p (gcmTag p)
  have hdrop : (aes_encrypt p).drop p.length = gcmTag p := by
    simpa [aes_encrypt, gcmTag] using List.drop_left p (gcmTag p)
  simp only [aes_decrypt, hlen, Nat.add_sub_cancel, htake, hdrop]
  simp

/-- The secret envelope round-trips exactly on plaintexts that fit a single
RSA block: the 16-byte GCM tag plus the 11 bytes of PKCS#1 v1.5 framing leave
512 - 16 - 11 = 485 bytes of payload under the 4096-bit modulus. -/
theorem envelope_roundtrip (p : Bytes) (hne : p ≠ []) (hlen : p.length ≤ 485) :
    (encrypt p).bind decrypt = some p := by
  have hc1 : (aes_encrypt p).length = p.length + 16 := by
    simp [aes_encrypt, gcmTag]
  have h501 : (aes_encrypt p).length + 11 ≤ 512 := by omega
  have hB : rsaEncryptBlock (aes_encrypt p) =
      some (0 :: 2 :: (List.replicate (509 - (aes_encrypt p).length) 1 ++
        0 :: aes_encrypt p)) := by
    rw [rsaEncryptBlock, if_pos h501]
  have hBlen : (0 :: 2 :: (List.replicate (509 - (aes_encrypt p).length) 1 ++
      0 :: aes_encrypt p)).length = 512 := by
    simp [List.length_replicate]
    omega
  have henc : encrypt p =
      some (0 :: 2 :: (List.replicate (509 - (aes_encrypt p).length) 1 ++
        0 :: aes_encrypt p)) := by
    rw [encrypt, if_neg hne, rsa_encrypt, if_neg (by omega)]
    exact hB
  have hdec : rsaDecryptBlock (0 :: 2 ::
      (List.replicate (509 - (aes_encrypt p).length) 1 ++ 0 :: aes_encrypt p)) =
      some (aes_encrypt p) := by
    have := rsaBlock_roundtrip (aes_encrypt p) h501
    rw [hB] at this
    simpa using this
  rw [henc]
  show decrypt _ = some p
  rw [decrypt, if_neg (by simp), rsa_decrypt]
  rw [if_neg (by rw [hBlen]; decide), if_neg (by rw [hBlen]; omega), hdec]
  exact aes_roundtrip p

/-- Apply a fallible function to every block, collecting the results. -/
def mapOpt (f : Bytes → Option Bytes) : List Bytes → Option (List Bytes)
  | [] => some []
  | b :: bs => (f b).bind fun c => (mapOpt f bs).map fun cs => c :: cs

/-- The `rsa_encrypt` loop is exactly: submit each block of `rsaFullChunks`
to the RSA primitive in order and concatenate the resulting ciphertexts. -/
theorem rsaEncryptFullBlocks_eq (fuel : Nat) :
    ∀ l : Bytes, rsaEncryptFullBlocks fuel l =
      (mapOpt rsaEncryptBlock (rsaFullChunks fuel l)).map List.flatten := by
  induction fuel with
  | zero => intro l; simp [rsaEncryptFullBlocks, rsaFullChunks, mapOpt]
  | succ fuel ih =>
    intro l
    rw [rsaEncryptFullBlocks, rsaFullChunks]
    by_cases h : 512 ≤ l.length
    · rw [if_pos h, if_pos h, ih (l.drop 512)]
      cases hc : rsaEncryptBlock (l.take 512) with
      | none => simp [mapOpt, hc]
      | some c =>
        cases hm : mapOpt rsaEncryptBlock (rsaFullChunks fuel (l.drop 512)) with
        | none => simp [mapOpt, hc, hm]
        | some bs => simp [mapOpt, hc, hm]
    · rw [if_neg h, if_neg h]
      simp [mapOpt]

/-- `rsa_encrypt` equals RSA applied block-wise to `rsaEncBlocks`: the block
decomposition is exactly what the encryption chain processes. -/
theorem rsa_encrypt_eq_blocks (plain : Bytes) :
    rsa_encrypt plain = (mapOpt rsaEncryptBlock (rsaEncBlocks plain)).map List.flatten := by
  rw [rsa_encrypt, rsaEncBlocks]
  by_cases h : 512 < plain.length
  · rw [if_pos h, if_pos h]
    exact rsaEncryptFullBlocks_eq plain.length plain
  · rw [if_neg h, if_neg h]
    cases hc : rsaEncryptBlock plain with
    | none => simp [mapOpt, hc]
    | some c => simp [mapOpt, hc]

/-- C1.  The claim states `decrypt (encrypt p) = p` for every non-empty byte
string `p`.  The code falsifies it: the AES-GCM ciphertext of a 486-byte
plaintext is 502 bytes, which no longer fits the 501-byte PKCS#1 v1.5 limit
of a single 512-byte RSA block, so `encrypt` fails outright (and for even
longer inputs the `rsa_encrypt` loop silently drops the trailing partial
block, see `rsa_stage_drops_final_partial_block`).  Evaluating the embedded
code: a 486-byte plaintext fails to encrypt while a 485-byte one round-trips,
so the round-trip property holds only up to 485 bytes, not for every
non-empty `p`. -/
theorem encrypt_fails_beyond_single_rsa_block :
    encrypt (List.replicate 486 0) = none ∧
    (encrypt (List.replicate 485 0)).bind decrypt = some (List.replicate 485 0) :=
  ⟨by decide, envelope_roundtrip (List.replicate 485 0) (by decide) (by decide)⟩

/-- C2.  The claim states that the RSA stage covers every byte of the AES
ciphertext `c1`, a final partial block being encrypted whole.  The code
falsifies it: on a 513-byte input the `while idx + 512 <= plain_len` loop of
`rsa_encrypt` submits only the first 512-byte block to RSA and exits, so the
513th byte belongs to no submitted block - the concatenation of the
submitted blocks is only the first 512 bytes of the input. -/
theorem rsa_stage_drops_final_partial_block :
    (rsaEncBlocks (List.replicate 513 0)).flatten = List.replicate 512 0 ∧
    (rsaEncBlocks (List.replicate 513 0)).flatten ≠ List.replicate 513 0 := by
  constructor
  · decide
  · decide

/-! ### Generic table operations

`db/mod.rs` exposes redb tables keyed by strings or string pairs.  A table is
embedded as an association list; redb's `get`, `insert` (which returns the
previous value and replaces it) and `remove` become `tfind?`, `tinsert`,
`tremove`.  Well-formed tables have pairwise distinct keys, which the
operations preserve. -/

section Table

variable {κ δ : Type} [DecidableEq κ]

/-- redb `table.get(k)`. -/
def tfind? (t : List (κ × δ)) (k : κ) : Option δ :=
  (t.find? fun p => decide (p.1 = k)).map Prod.snd

/-- redb `table.insert(k, d)`: replaces the row if the key is present,
appends it otherwise. -/
def tinsert (t : List (κ × δ)) (k : κ) (d : δ) : List (κ × δ) :=
  if (tfind? t k).isSome then
    t.map fun p => if p.1 = k then (k, d) else p
  else t ++ [(k, d)]

/-- redb `table.remove(k)`. -/
def tremove (t : List (κ × δ)) (k : κ) : List (κ × δ) :=
  t.filter fun p => decide (p.1 ≠ k)

/-- Keys of a table. -/
def tkeys (t : List (κ × δ)) : List κ := t.map Prod.fst

end Table

/-! ### The data-plane authorization engine

`access_check` (vault/mod.rs:43-121) embeds as a function of the access-key
table, the requester IP, the credentials, the required permission and the
vault.  `none` models an `AppError` return (surfaced as HTTP 500 by the
endpoints); `some` carries the `CommonAccessResult`.

External pieces are modelled as follows.  IP addresses are `IpAddr.v4` /
`IpAddr.v6` carrying the numeric address; `ipnetwork::IpNetwork::contains`
compares the addresses shifted right by the host bits (and is false across
versions).  The stored security-group `network` string field is embedded as
its parse result (`none` for an unparsable literal).  The stored base64 DER
ECDSA-P256 signature is modelled symbolically by `StoredSig`: a string that
fails base64 decoding, one that decodes but is not DER, or a valid signature
`derFor m` that verifies exactly the message `m` under the node's fixed
verifying key (ideal unforgeable-signature model of `verify_access_key`,
access_keys.rs:124-137). -/

/-- `permission::VaultRoles`. -/
inductive VaultRoles
  | ListSecrets
  | DeleteSecrets
  | CreateSecrets
  | DecryptSecrets
deriving DecidableEq

/-- An IPv4 or IPv6 address as its numeric value. -/
inductive IpAddr
  | v4 (a : Nat)
  | v6 (a : Nat)
deriving DecidableEq

/-- `std::net::IpAddr::is_ipv4`. -/
def IpAddr.isV4 : IpAddr → Bool
  | .v4 _ => true
  | .v6 _ => false

/-- The maximal CIDR prefix for the address family: 32 for v4, 128 for v6. -/
def ipLimit : IpAddr → Nat
  | .v4 _ => 32
  | .v6 _ => 128

/-- `ipnetwork::IpNetwork::contains`: the request IP is in the network iff
the two addresses agree above the `width - p` host bits; always false when
the address families differ. -/
def cidrContains (network : IpAddr) (p : Nat) (ip : IpAddr) : Bool :=
  match network, ip with
  | .v4 n, .v4 a => n / 2 ^ (32 - p) == a / 2 ^ (32 - p)
  | .v6 n, .v6 a => n / 2 ^ (128 - p) == a / 2 ^ (128 - p)
  | _, _ => false

/-- `db::access::AccessKeySgDocument`: the stored network literal (as its
parse result) and the stored prefix (`i32` in the source, hence `Int`; the
source field is named `prefix`). -/
structure AccessKeySgDocument where
  network : Option IpAddr
  pfx : Int
deriving DecidableEq

/-- Symbolic model of the stored base64 DER ECDSA-P256 signature. -/
inductive StoredSig
  | notBase64
  | notDer
  | derFor (msg : String)
deriving DecidableEq

/-- `db::access::AccessKeyDocument`. -/
structure AccessKeyDocument where
  secret_access_key : StoredSig
  permission : List VaultRoles
  sg : List AccessKeySgDocument
  created : String
  last_used : Option String
deriving DecidableEq

/-- The access-keys table, keyed by `(vault, access_key)`. -/
abbrev AccessTable := List ((String × String) × AccessKeyDocument)

/-- `vault::CommonAccessResult`. -/
inductive CommonAccessResult
  | Authorized
  | Unauthorized
deriving DecidableEq

/-- `verify_access_key` outcome for a stored signature against the supplied
secret-access-key: true only for a valid DER signature of that string. -/
def sigVerifies (s : StoredSig) (sak : String) : Bool :=
  match s with
  | .derFor m => decide (m = sak)
  | _ => false

/-- One iteration of the security-group loop in `access_check`
(vault/mod.rs:53-94): parse the network (parse failure is an error), reject a
prefix above the family limit as an error, build the `IpNetwork` from the
low byte of the prefix (`(network_prefix & 0xFF) as u8`; `IpNetwork::new`
errors if that byte still exceeds the family limit), then test containment.
`none` is an `AppError`; `some b` says whether this entry contains the IP. -/
def checkSgEntry (requesterIp : IpAddr) (e : AccessKeySgDocument) : Option Bool :=
  match e.network with
  | none => none
  | some net =>
    if (ipLimit net : Int) < e.pfx then none
    else
      let masked := (e.pfx % 256).toNat
      if ipLimit net < masked then none
      else some (cidrContains net masked requesterIp)

/-- The `for sg in &ac_document.sg` loop with its early `break` on the first
containing entry. -/
def checkSgList (requesterIp : IpAddr) : List AccessKeySgDocument → Option Bool
  | [] => some false
  | e :: rest =>
    match checkSgEntry requesterIp e with
    | none => none
    | some true => some true
    | some false => checkSgList requesterIp rest

/-- `access_check` (vault/mod.rs:43-121). -/
def access_check (table : AccessTable) (requesterIp : IpAddr)
    (access_key secret_access_key : String) (perm : VaultRoles)
    (vault : String) : Option CommonAccessResult :=
  match tfind? table (vault, access_key) with
  | none => some .Unauthorized
  | some doc =>
    match checkSgList requesterIp doc.sg with
    | none => none
    | some false => some .Unauthorized
    | some true =>
      match doc.secret_access_key with
      | .notBase64 => none
      | .notDer => none
      | .derFor m =>
        if m = secret_access_key then
          if perm ∈ doc.permission then some .Authorized
          else some .Unauthorized
        else some .Unauthorized

/-- A stored security-group entry is well formed when its network literal
parses and its prefix lies within `0 ≤ prefix ≤ 32` (v4) / `≤ 128` (v6). -/
def sgEntryWF (e : AccessKeySgDocument) : Bool :=
  match e.network with
  | some net => decide (0 ≤ e.pfx) && decide (e.pfx ≤ (ipLimit net : Int))
  | none => false

/-- Whether a stored entry's CIDR contains the requester IP. -/
def sgMatches (requesterIp : IpAddr) (e : AccessKeySgDocument) : Bool :=
  match e.network with
  | some net => cidrContains net ((e.pfx % 256).toNat) requesterIp
  | none => false

/-- A stored access-key document is well formed when all its security-group
entries are and its stored signature is valid base64-encoded DER. -/
def docWF (doc : AccessKeyDocument) : Bool :=
  doc.sg.all sgEntryWF &&
    (match doc.secret_access_key with
     | .derFor _ => true
     | _ => false)

/-- On a well-formed entry the loop body reports plain containment. -/
theorem checkSgEntry_of_wf (requesterIp : IpAddr) (e : AccessKeySgDocument)
    (h : sgEntryWF e = true) :
    checkSgEntry requesterIp e = some (sgMatches requesterIp e) := by
  unfold sgEntryWF at h
  match hn : e.network with
  | none => rw [hn] at h; cases h
  | some net =>
    rw [hn] at h
    simp only [Bool.and_eq_true, decide_eq_true_eq] at h
    obtain ⟨h0, hle⟩ := h
    have hmod : e.pfx % 256 = e.pfx := by
      cases net <;> simp only [ipLimit] at hle <;> omega
    have hmask : (e.pfx % 256).toNat ≤ ipLimit net := by
      rw [hmod]
      cases net <;> simp only [ipLimit] at hle ⊢ <;> omega
    have h1 : ¬ ((ipLimit net : Int) < e.pfx) := not_lt.mpr hle
    have h2 : ¬ (ipLimit net < (e.pfx % 256).toNat) := not_lt.mpr hmask
    unfold checkSgEntry sgMatches
    rw [hn]
    simp [h1, h2]

/-- On a list of well-formed entries the loop computes `List.any` of
containment. -/
theorem checkSgList_of_wf (requesterIp : IpAddr) (sg : List AccessKeySgDocument)
    (h : ∀ e ∈ sg, sgEntryWF e = true) :
    checkSgList requesterIp sg = some (sg.any fun e => sgMatches requesterIp e) := by
  induction sg with
  | nil => rfl
  | cons e rest ih =>
    rw [checkSgList, checkSgEntry_of_wf requesterIp e (h e (by simp))]
    cases hm : sgMatches requesterIp e with
    | false =>
      rw [ih fun x hx => h x (by simp [hx])]
      simp [hm]
    | true => simp [hm]

/-- Under a found, well-formed document, `access_check` reduces to the
chain: CIDR containment, then signature match, then permission membership. -/
theorem access_check_eq (table : AccessTable) (requesterIp : IpAddr)
    (ak sak : String) (perm : VaultRoles) (vault : String)
    (doc : AccessKeyDocument) (m : String)
    (hf : tfind? table (vault, ak) = some doc)
    (hsg : doc.sg.all sgEntryWF = true)
    (hs : doc.secret_access_key = .derFor m) :
    access_check table requesterIp ak sak perm vault =
      if doc.sg.any (fun e => sgMatches requesterIp e) then
        if m = sak then
          if perm ∈ doc.permission then some .Authorized else some .Unauthorized
        else some .Unauthorized
      else some .Unauthorized := by
  simp only [access_check, hf]
  rw [checkSgList_of_wf requesterIp doc.sg (List.all_eq_true.mp hsg)]
  cases ha : doc.sg.any fun e => sgMatches requesterIp e with
  | false => simp
  | true => simp [hs]

/-- C3.  For a data-plane request, `access_check` returns `Authorized` iff
the `(vault, access_key)` row exists, the requester IP is contained in at
least one of the row's CIDR security groups, the stored base64 DER ECDSA
signature verifies against the supplied secret-access-key, and the required
permission is in the row's permission set; in every other case (row absent,
no CIDR containing the IP, signature mismatch, or permission absent) it
returns `Unauthorized`.  Hypothesis: the looked-up document, if any, is well
formed (parseable networks, in-range prefixes, decodable DER signature) -
malformed stored documents instead surface as errors, see C7. -/
theorem access_check_authorized_iff (table : AccessTable) (requesterIp : IpAddr)
    (ak sak : String) (perm : VaultRoles) (vault : String)
    (hwf : (tfind? table (vault, ak)).all docWF = true) :
    (access_check table requesterIp ak sak perm vault = some .Authorized ↔
      ∃ doc, tfind? table (vault, ak) = some doc ∧
        (∃ e ∈ doc.sg, sgMatches requesterIp e = true) ∧
        sigVerifies doc.secret_access_key sak = true ∧
        perm ∈ doc.permission) ∧
    (access_check table requesterIp ak sak perm vault = some .Unauthorized ↔
      ¬ ∃ doc, tfind? table (vault, ak) = some doc ∧
        (∃ e ∈ doc.sg, sgMatches requesterIp e = true) ∧
        sigVerifies doc.secret_access_key sak = true ∧
        perm ∈ doc.permission) := by
  cases hf : tfind? table (vault, ak) with
  | none =>
    have hac : access_check table requesterIp ak sak perm vault = some .Unauthorized := by
      simp [access_check, hf]
    constructor
    · constructor
      · intro h
        rw [hac] at h
        simp at h
      · rintro ⟨doc, hd, -⟩
        simp at hd
    · constructor
      · rintro - ⟨doc, hd, -⟩
        simp at hd
      · intro _
        exact hac
  | some doc =>
    rw [hf] at hwf
    have hdw : docWF doc = true := by simpa [Option.all] using hwf
    rw [docWF, Bool.and_eq_true] at hdw
    obtain ⟨hsg, hsig⟩ := hdw
    obtain ⟨m, hs⟩ : ∃ m, doc.secret_access_key = .derFor m := by
      cases h : doc.secret_access_key with
      | derFor m => exact ⟨m, rfl⟩
      | notBase64 => rw [h] at hsig; cases hsig
      | notDer => rw [h] at hsig; cases hsig
    rw [access_check_eq table requesterIp ak sak perm vault doc m hf hsg hs]
    have hrhs : (∃ d, (some doc : Option AccessKeyDocument) = some d ∧
        (∃ e ∈ d.sg, sgMatches requesterIp e = true) ∧
        sigVerifies d.secret_access_key sak = true ∧
        perm ∈ d.permission) ↔
        ((doc.sg.any fun e => sgMatches requesterIp e) = true ∧
         m = sak ∧ perm ∈ doc.permission) := by
      constructor
      · rintro ⟨d, hd, he, hv, hp⟩
        injection hd with hd
        subst hd
        refine ⟨List.any_eq_true.mpr ?_, ?_, hp⟩
        · obtain ⟨e, he1, he2⟩ := he
          exact ⟨e, he1, he2⟩
        · rw [hs] at hv
          simpa [sigVerifies] using hv
      · rintro ⟨ha, hm, hp⟩
        refine ⟨doc, rfl, ?_, ?_, hp⟩
        · obtain ⟨e, he1, he2⟩ := List.any_eq_true.mp ha
          exact ⟨e, he1, he2⟩
        · rw [hs]
          simpa [sigVerifies] using hm
    rw [hrhs]
    cases ha : (doc.sg.any fun e => sgMatches requesterIp e) with
    | false => simp
    | true =>
      by_cases hm : m = sak
      · by_cases hp : perm ∈ doc.permission
        · simp [hm, hp]
        · simp [hm, hp]
      · simp [hm]

/-- Concrete access-key document used to witness the authorization
theorems. -/
def witnessDoc : AccessKeyDocument :=
  { secret_access_key := .derFor "SAK0"
    permission := [.DecryptSecrets, .ListSecrets]
    sg := [{ network := some (.v4 2130706432), pfx := 24 }]
    created := "t0"
    last_used := none }

/-- Concrete access-keys table used to witness the authorization theorems. -/
def witnessTable : AccessTable := [(("v1", "AK0"), witnessDoc)]

/-- C3 witness: the theorem applied at a concrete table, IP `127.0.0.1`
(2130706433) inside the stored `127.0.0.0/24`, the right secret-access-key
and a granted permission, yielding `Authorized`. -/
theorem access_check_authorized_iff_witness :
    access_check witnessTable (.v4 2130706433) "AK0" "SAK0" .DecryptSecrets "v1" =
      some .Authorized :=
  (access_check_authorized_iff witnessTable (.v4 2130706433) "AK0" "SAK0"
      .DecryptSecrets "v1" (by decide)).1.mpr
    ⟨witnessDoc, by decide, by decide, by decide, by decide⟩

/-- The loop skips earlier well-formed non-matching entries unchanged. -/
theorem checkSgList_append_skip (requesterIp : IpAddr)
    (pre rest : List AccessKeySgDocument)
    (hpre : ∀ e ∈ pre, sgEntryWF e = true ∧ sgMatches requesterIp e = false) :
    checkSgList requesterIp (pre ++ rest) = checkSgList requesterIp rest := by
  induction pre with
  | nil => rfl
  | cons e pre ih =>
    obtain ⟨hw, hm⟩ := hpre e (by simp)
    rw [List.cons_append, checkSgList, checkSgEntry_of_wf requesterIp e hw, hm]
    exact ih fun x hx => hpre x (by simp [hx])

/-- C7.  When the security-group scan of the looked-up access key reaches a
stored entry whose prefix exceeds the family limit (32 for an IPv4 literal,
128 for IPv6) - i.e. all entries before it are well formed and do not contain
the requester IP - `access_check` fails with an error (`none`, surfaced as
HTTP 500 by the endpoints), and in particular returns neither `Authorized`
nor `Unauthorized` for that request. -/
theorem invalid_prefix_fails_request (table : AccessTable) (requesterIp : IpAddr)
    (ak sak : String) (perm : VaultRoles) (vault : String)
    (doc : AccessKeyDocument) (pre post : List AccessKeySgDocument)
    (e : AccessKeySgDocument) (net : IpAddr)
    (hf : tfind? table (vault, ak) = some doc)
    (hsg : doc.sg = pre ++ e :: post)
    (hpre : ∀ x ∈ pre, sgEntryWF x = true ∧ sgMatches requesterIp x = false)
    (hnet : e.network = some net)
    (hbad : (ipLimit net : Int) < e.pfx) :
    access_check table requesterIp ak sak perm vault = none := by
  have hentry : checkSgEntry requesterIp e = none := by
    unfold checkSgEntry
    rw [hnet]
    simp [hbad]
  have hlist : checkSgList requesterIp doc.sg = none := by
    rw [hsg, checkSgList_append_skip requesterIp pre (e :: post) hpre,
      checkSgList, hentry]
  simp only [access_check, hf, hlist]

/-- Document with an invalid stored prefix (`/33` on an IPv4 literal). -/
def witnessBadDoc : AccessKeyDocument :=
  { secret_access_key := .derFor "SAK1"
    permission := [.DecryptSecrets]
    sg := [{ network := some (.v4 2130706432), pfx := 33 }]
    created := "t0"
    last_used := none }

/-- C7 witness: the theorem applied at a concrete table whose only stored
security group is `127.0.0.0/33` - the check errors out instead of deciding
authorization. -/
theorem invalid_prefix_fails_request_witness :
    access_check [(("v1", "AK1"), witnessBadDoc)] (.v4 2130706433) "AK1" "SAK1"
      .DecryptSecrets "v1" = none :=
  invalid_prefix_fails_request [(("v1", "AK1"), witnessBadDoc)] (.v4 2130706433)
    "AK1" "SAK1" .DecryptSecrets "v1" witnessBadDoc [] []
    { network := some (.v4 2130706432), pfx := 33 } (.v4 2130706432)
    (by decide) rfl (by simp) rfl (by decide)

/-! ### Table lemmas -/

section TableLemmas

variable {κ δ : Type} [DecidableEq κ]

theorem tfind?_eq_none_iff {t : List (κ × δ)} {k : κ} :
    tfind? t k = none ↔ ∀ p ∈ t, p.1 ≠ k := by
  simp [tfind?, List.find?_eq_none]

theorem tfind?_mem {t : List (κ × δ)} {k : κ} {d : δ} (h : tfind? t k = some d) :
    (k, d) ∈ t := by
  unfold tfind? at h
  cases hf : t.find? fun p => decide (p.1 = k) with
  | none => rw [hf] at h; cases h
  | some q =>
    rw [hf] at h
    injection h with h
    have hq : q.1 = k := by simpa using List.find?_some hf
    have hmem := List.mem_of_find?_eq_some hf
    have : q = (k, d) := by
      cases q
      simp only [Prod.mk.injEq]
      exact ⟨hq, h⟩
    rwa [this] at hmem

theorem mem_tfind? {t : List (κ × δ)} (hnd : (tkeys t).Nodup) {p : κ × δ}
    (hp : p ∈ t) : tfind? t p.1 = some p.2 := by
  induction t with
  | nil => cases hp
  | cons q rest ih =>
    rw [tkeys, List.map_cons, List.nodup_cons] at hnd
    obtain ⟨hq, hnd'⟩ := hnd
    rcases List.mem_cons.mp hp with h | h
    · subst h
      simp [tfind?]
    · have hne : q.1 ≠ p.1 := by
        intro he
        exact hq (he ▸ List.mem_map.mpr ⟨p, h, rfl⟩)
      simpa [tfind?, List.find?_cons, hne] using ih hnd' h

theorem tfind?_map_replace {t : List (κ × δ)} {k : κ} {d : δ}
    (h : (tfind? t k).isSome) :
    tfind? (t.map fun p => if p.1 = k then (k, d) else p) k = some d := by
  induction t with
  | nil => simp [tfind?] at h
  | cons q rest ih =>
    by_cases hq : q.1 = k
    · simp [tfind?, List.find?_cons, hq]
    · have h' : (tfind? rest k).isSome := by
        simpa [tfind?, List.find?_cons, hq] using h
      simpa [tfind?, List.find?_cons, hq] using ih h'

theorem tfind?_append_none {t : List (κ × δ)} {k : κ}
    (hn : tfind? t k = none) (s : List (κ × δ)) :
    tfind? (t ++ s) k = tfind? s k := by
  induction t with
  | nil => rfl
  | cons q rest ih =>
    by_cases hq : q.1 = k
    · simp [tfind?, List.find?_cons, hq] at hn
    · have hn' : tfind? rest k = none := by
        simpa [tfind?, List.find?_cons, hq] using hn
      simpa [tfind?, List.find?_cons, hq] using ih hn'

theorem tfind?_tinsert_self {t : List (κ × δ)} {k : κ} {d : δ} :
    tfind? (tinsert t k d) k = some d := by
  unfold tinsert
  by_cases h : (tfind? t k).isSome
  · rw [if_pos h]
    exact tfind?_map_replace h
  · rw [if_neg h]
    have hn : tfind? t k = none := by
      cases hv : tfind? t k
      · rfl
      · rw [hv] at h; simp at h
    rw [tfind?_append_none hn]
    simp [tfind?, List.find?]

theorem tfind?_map_replace_ne {t : List (κ × δ)} {k k' : κ} {d : δ} (h : k' ≠ k) :
    tfind? (t.map fun p => if p.1 = k then (k, d) else p) k' = tfind? t k' := by
  induction t with
  | nil => rfl
  | cons q rest ih =>
    by_cases hq : q.1 = k
    · simpa [tfind?, List.find?_cons, hq, Ne.symm h] using ih
    · have hd : (if q.1 = k then ((k, d) : κ × δ) else q) = q := if_neg hq
      by_cases hk' : q.1 = k'
      · rw [List.map_cons, hd]
        simp [tfind?, List.find?_cons, show decide (q.1 = k') = true by simp [hk']]
      · simpa [tfind?, List.find?_cons, List.map_cons, hd, hk'] using ih

theorem tfind?_append_single_ne {t : List (κ × δ)} {k k' : κ} {d : δ}
    (h : k' ≠ k) : tfind? (t ++ [(k, d)]) k' = tfind? t k' := by
  induction t with
  | nil => simp [tfind?, List.find?, Ne.symm h]
  | cons q rest ih =>
    by_cases hk' : q.1 = k'
    · simp [tfind?, List.find?_cons, hk']
    · simpa [tfind?, List.find?_cons, hk'] using ih

theorem tfind?_tinsert_ne {t : List (κ × δ)} {k k' : κ} {d : δ} (h : k' ≠ k) :
    tfind? (tinsert t k d) k' = tfind? t k' := by
  unfold tinsert
  by_cases hs : (tfind? t k).isSome
  · rw [if_pos hs]
    exact tfind?_map_replace_ne h
  · rw [if_neg hs]
    exact tfind?_append_single_ne h

theorem tfind?_tremove_self {t : List (κ × δ)} {k : κ} :
    tfind? (tremove t k) k = none := by
  rw [tfind?_eq_none_iff]
  intro p hp
  have := List.of_mem_filter hp
  simpa using this

theorem tfind?_tremove_ne {t : List (κ × δ)} {k k' : κ} (h : k' ≠ k) :
    tfind? (tremove t k) k' = tfind? t k' := by
  induction t with
  | nil => rfl
  | cons q rest ih =>
    by_cases hq : q.1 = k
    · have hr : tremove (q :: rest) k = tremove rest k := by
        simp [tremove, List.filter_cons, hq]
      have hne : q.1 ≠ k' := by rw [hq]; exact Ne.symm h
      rw [hr, ih]
      simp [tfind?, List.find?_cons, hne]
    · have hr : tremove (q :: rest) k = q :: tremove rest k := by
        simp [tremove, List.filter_cons, hq]
      rw [hr]
      by_cases hk' : q.1 = k'
      · simp [tfind?, List.find?_cons, hk']
      · simpa [tfind?, List.find?_cons, hk'] using ih

theorem tremove_eq_self {t : List (κ × δ)} {k : κ} (h : ∀ p ∈ t, p.1 ≠ k) :
    tremove t k = t :=
  List.filter_eq_self.mpr fun p hp => by simpa using h p hp

theorem tkeys_tinsert_of_isSome {t : List (κ × δ)} {k : κ} {d : δ}
    (h : (tfind? t k).isSome) : tkeys (tinsert t k d) = tkeys t := by
  unfold tinsert
  rw [if_pos h, tkeys, tkeys, List.map_map]
  apply List.map_congr_left
  intro p _
  by_cases hp : p.1 = k
  · simp [hp]
  · simp [hp]

theorem tkeys_tinsert_of_none {t : List (κ × δ)} {k : κ} {d : δ}
    (h : tfind? t k = none) : tkeys (tinsert t k d) = tkeys t ++ [k] := by
  unfold tinsert
  rw [if_neg (by simp [h]), tkeys, tkeys, List.map_append]
  rfl

theorem nodup_tinsert {t : List (κ × δ)} {k : κ} {d : δ}
    (h : (tkeys t).Nodup) : (tkeys (tinsert t k d)).Nodup := by
  by_cases hs : (tfind? t k).isSome
  · rwa [tkeys_tinsert_of_isSome hs]
  · have hn : tfind? t k = none := by
      cases hv : tfind? t k
      · rfl
      · rw [hv] at hs; simp at hs
    rw [tkeys_tinsert_of_none hn]
    have hk : k ∉ tkeys t := by
      intro hmem
      obtain ⟨p, hp, hpk⟩ := List.mem_map.mp hmem
      exact (tfind?_eq_none_iff.mp hn p hp) hpk
    simp [List.nodup_append, h, hk]

theorem nodup_tremove {t : List (κ × δ)} {k : κ}
    (h : (tkeys t).Nodup) : (tkeys (tremove t k)).Nodup :=
  ((List.filter_sublist t).map Prod.fst).nodup h

end TableLemmas

/-! ### Counting child rows of a vault

Keys of the secrets and access-keys tables are `(vault, name)` pairs; a row
belongs to vault `v` when the first component of its key is `v` (the
"key-prefix" check `access_key_ns == vault` used by `list` and `purge`). -/

section CountLemmas

variable {δ : Type}

/-- Number of rows whose key prefix (first key component) is `v`. -/
def countIn (t : List ((String × String) × δ)) (v : String) : Nat :=
  (t.filter fun p => decide (p.1.1 = v)).length

/-- `purge` (db/secret.rs:273-334, db/access.rs:515-577): collect the keys of
all rows whose key prefix is `v` inside the transaction, then remove each;
the net effect is to drop exactly those rows. -/
def purgeTable (t : List ((String × String) × δ)) (v : String) :
    List ((String × String) × δ) :=
  t.filter fun p => decide (p.1.1 ≠ v)

theorem countIn_cons {q : (String × String) × δ} {t : List ((String × String) × δ)}
    {v : String} :
    countIn (q :: t) v = countIn t v + (if q.1.1 = v then 1 else 0) := by
  by_cases h : q.1.1 = v <;> simp [countIn, List.filter_cons, h] <;> omega

theorem countIn_append_single {t : List ((String × String) × δ)}
    {k : String × String} {d : δ} {v : String} :
    countIn (t ++ [(k, d)]) v = countIn t v + (if k.1 = v then 1 else 0) := by
  by_cases h : k.1 = v <;>
    simp [countIn, List.filter_append, List.filter_cons, h]

theorem countIn_map_replace {t : List ((String × String) × δ)}
    {k : String × String} {d : δ} {v : String} :
    countIn (t.map fun p => if p.1 = k then (k, d) else p) v = countIn t v := by
  induction t with
  | nil => rfl
  | cons q rest ih =>
    have hfst : (if q.1 = k then ((k, d) : (String × String) × δ) else q).1.1 = q.1.1 := by
      by_cases hq : q.1 = k
      · rw [if_pos hq, ← hq]
      · rw [if_neg hq]
    rw [List.map_cons, countIn_cons, countIn_cons, hfst, ih]

theorem countIn_tinsert_isSome {t : List ((String × String) × δ)}
    {k : String × String} {d : δ} {v : String} (hex : (tfind? t k).isSome) :
    countIn (tinsert t k d) v = countIn t v := by
  unfold tinsert
  rw [if_pos hex]
  exact countIn_map_replace

theorem countIn_tinsert_none {t : List ((String × String) × δ)}
    {k : String × String} {d : δ} {v : String} (hn : tfind? t k = none) :
    countIn (tinsert t k d) v = countIn t v + (if k.1 = v then 1 else 0) := by
  unfold tinsert
  rw [if_neg (by simp [hn])]
  exact countIn_append_single

theorem countIn_tremove {t : List ((String × String) × δ)}
    {k : String × String} {d0 : δ} {v : String}
    (hnd : (tkeys t).Nodup) (hf : tfind? t k = some d0) :
    countIn t v = countIn (tremove t k) v + (if k.1 = v then 1 else 0) := by
  induction t with
  | nil => simp [tfind?] at hf
  | cons q rest ih =>
    rw [tkeys, List.map_cons, List.nodup_cons] at hnd
    obtain ⟨hqn, hnd'⟩ := hnd
    by_cases hq : q.1 = k
    · have hall : ∀ p ∈ rest, p.1 ≠ k := by
        intro p hp he
        exact hqn (by rw [hq, ← he]; exact List.mem_map.mpr ⟨p, hp, rfl⟩)
      have hres : tremove (q :: rest) k = rest := by
        rw [tremove, List.filter_cons]
        rw [show (decide (q.1 ≠ k)) = false by simp [hq]]
        exact tremove_eq_self hall
      rw [countIn_cons, hres, show q.1.1 = k.1 by rw [hq]]
    · have hf' : tfind? rest k = some d0 := by
        simpa [tfind?, List.find?_cons, hq] using hf
      have hres : tremove (q :: rest) k = q :: tremove rest k := by
        rw [tremove, List.filter_cons]
        rw [show (decide (q.1 ≠ k)) = true by simp [hq]]
        rfl
      rw [countIn_cons, hres, countIn_cons, ih hnd' hf']
      omega

theorem countIn_purge_self {t : List ((String × String) × δ)} {v : String} :
    countIn (purgeTable t v) v = 0 := by
  induction t with
  | nil => rfl
  | cons q rest ih =>
    by_cases h : q.1.1 = v
    · simpa [purgeTable, List.filter_cons, h] using ih
    · have hpt : purgeTable (q :: rest) v = q :: purgeTable rest v := by
        simp [purgeTable, List.filter_cons, h]
      rw [hpt, countIn_cons, ih]
      simp [h]

theorem countIn_purge_ne {t : List ((String × String) × δ)} {v w : String}
    (h : w ≠ v) : countIn (purgeTable t v) w = countIn t w := by
  induction t with
  | nil => rfl
  | cons q rest ih =>
    by_cases hq : q.1.1 = v
    · have hpt : purgeTable (q :: rest) v = purgeTable rest v := by
        simp [purgeTable, List.filter_cons, hq]
      rw [hpt, ih, countIn_cons]
      simp [hq, Ne.symm h]
    · have hpt : purgeTable (q :: rest) v = q :: purgeTable rest v := by
        simp [purgeTable, List.filter_cons, hq]
      rw [hpt, countIn_cons, countIn_cons, ih]

theorem countIn_eq_zero_of {t : List ((String × String) × δ)} {v : String}
    (h : ∀ q ∈ t, q.1.1 ≠ v) : countIn t v = 0 := by
  induction t with
  | nil => rfl
  | cons q rest ih =>
    rw [countIn_cons, ih fun x hx => h x (by simp [hx])]
    simp [h q (by simp)]

theorem mem_tinsert_cases {t : List ((String × String) × δ)}
    {k : String × String} {d : δ} {q : (String × String) × δ}
    (hq : q ∈ tinsert t k d) : q = (k, d) ∨ q ∈ t := by
  unfold tinsert at hq
  by_cases hs : (tfind? t k).isSome
  · rw [if_pos hs] at hq
    obtain ⟨p, hp, hpq⟩ := List.mem_map.mp hq
    by_cases hpk : p.1 = k
    · rw [if_pos hpk] at hpq
      exact Or.inl hpq.symm
    · rw [if_neg hpk] at hpq
      exact Or.inr (hpq ▸ hp)
  · rw [if_neg hs] at hq
    rcases List.mem_append.mp hq with h | h
    · exact Or.inr h
    · exact Or.inl (by simpa using h)

theorem mem_tremove {t : List ((String × String) × δ)} {k : String × String}
    {q : (String × String) × δ} (hq : q ∈ tremove t k) : q ∈ t :=
  List.mem_of_mem_filter hq

theorem mem_purge {t : List ((String × String) × δ)} {v : String}
    {q : (String × String) × δ} (hq : q ∈ purgeTable t v) :
    q ∈ t ∧ q.1.1 ≠ v := by
  refine ⟨List.mem_of_mem_filter hq, ?_⟩
  have := List.of_mem_filter hq
  simpa using this

end CountLemmas

/-! ### The KV data model and its admin operations

The four document types of `db/` and the state of the store.  Timestamps are
opaque strings supplied by the caller (`chrono` is external); the base64
framing of a secret body is a bijection elided from the model, so the stored
`secret` field carries the ciphertext bytes directly.  A whole redb write
transaction (row mutation plus counter update plus commit) is one transition
of the model, matching the all-in-one-transaction discipline of the code. -/

/-- `db::vault::VaultDocument` (counters are `i64` in the source). -/
structure VaultDocument where
  created : String
  secrets_count : Int
  access_keys_count : Int
deriving DecidableEq

/-- `db::secret::SecretDocument` (the `secret` field is the stored ciphertext;
base64 framing elided). -/
structure SecretDocument where
  created : String
  secret : Bytes
deriving DecidableEq

/-- `db::vault::UpdateVault`. -/
inductive UpdateVault
  | IncreaseSecrets
  | IncreaseAccessKey
  | DecreaseSecrets
  | DecreaseAccessKey
deriving DecidableEq

/-- The vaults table, keyed by vault name. -/
abbrev VaultTable := List (String × VaultDocument)

/-- The secrets table, keyed by `(vault, secret_name)`. -/
abbrev SecretTable := List ((String × String) × SecretDocument)

/-- The persistent state: the three tables the claims are about (the users
table takes no part in them). -/
structure DbState where
  vaults : VaultTable
  secrets : SecretTable
  access_keys : AccessTable
deriving DecidableEq

/-- The fresh store. -/
def dbEmpty : DbState := ⟨[], [], []⟩

/-- The counter adjustment of `vault::update` on an existing row
(db/vault.rs:71-76). -/
def applyUpdate (u : UpdateVault) (d : VaultDocument) : VaultDocument :=
  match u with
  | .IncreaseSecrets => { d with secrets_count := d.secrets_count + 1 }
  | .IncreaseAccessKey => { d with access_keys_count := d.access_keys_count + 1 }
  | .DecreaseSecrets => { d with secrets_count := d.secrets_count - 1 }
  | .DecreaseAccessKey => { d with access_keys_count := d.access_keys_count - 1 }

/-- The fresh row `vault::update` writes when the vault row is absent
(db/vault.rs:79-95): current timestamp, counter 1 only for the increase
matching the update kind. -/
def freshVaultDoc (u : UpdateVault) (now : String) : VaultDocument :=
  { created := now
    secrets_count := if u = .IncreaseSecrets then 1 else 0
    access_keys_count := if u = .IncreaseAccessKey then 1 else 0 }

/-- `vault::update` (db/vault.rs:39-128): read the row, adjust or create,
write back (inside the caller's write transaction). -/
def vaultUpdate (vault : String) (u : UpdateVault) (now : String)
    (t : VaultTable) : VaultTable :=
  match tfind? t vault with
  | some d => tinsert t vault (applyUpdate u d)
  | none => tinsert t vault (freshVaultDoc u now)

/-- `db::secret::InsertSecretResult`. -/
inductive InsertSecretResult
  | Inserted
  | Updated
deriving DecidableEq

/-- `db::secret::DeleteSecretResult`. -/
inductive DeleteSecretResult
  | Deleted
  | NotFound
deriving DecidableEq

/-- `db::access::DeleteAccessKeyResult`. -/
inductive DeleteAccessKeyResult
  | Deleted
  | NotFound
deriving DecidableEq

/-- `db::vault::DeleteVaultResult`. -/
inductive DeleteVaultResult
  | Deleted
  | NotFound
deriving DecidableEq

/-- `db::secret::insert` (db/secret.rs:36-100): upsert the row; redb's
`insert` reports whether a previous value existed; on a fresh key the vault
counter is increased in the same transaction. -/
def secret_insert (vault name : String) (doc : SecretDocument) (now : String)
    (s : DbState) : DbState × InsertSecretResult :=
  if (tfind? s.secrets (vault, name)).isSome then
    ({ s with secrets := tinsert s.secrets (vault, name) doc }, .Updated)
  else
    ({ s with secrets := tinsert s.secrets (vault, name) doc,
              vaults := vaultUpdate vault .IncreaseSecrets now s.vaults }, .Inserted)

/-- `db::secret::delete` (db/secret.rs:107-159): remove the row; when one was
present the vault counter is decreased in the same transaction. -/
def secret_delete (vault name now : String) (s : DbState) :
    DbState × DeleteSecretResult :=
  if (tfind? s.secrets (vault, name)).isSome then
    ({ s with secrets := tremove s.secrets (vault, name),
              vaults := vaultUpdate vault .DecreaseSecrets now s.vaults }, .Deleted)
  else (s, .NotFound)

/-- `db::access::insert` (db/access.rs:43-130): errors when the key already
exists (the transaction is dropped uncommitted, leaving the state unchanged);
otherwise inserts the row and increases the vault counter in the same
transaction.  The `Bool` is `true` on success. -/
def access_insert (vault key : String) (doc : AccessKeyDocument) (now : String)
    (s : DbState) : DbState × Bool :=
  if (tfind? s.access_keys (vault, key)).isSome then (s, false)
  else
    ({ s with access_keys := tinsert s.access_keys (vault, key) doc,
              vaults := vaultUpdate vault .IncreaseAccessKey now s.vaults }, true)

/-- `db::access::delete` (db/access.rs:137-189). -/
def access_delete (vault key now : String) (s : DbState) :
    DbState × DeleteAccessKeyResult :=
  if (tfind? s.access_keys (vault, key)).isSome then
    ({ s with access_keys := tremove s.access_keys (vault, key),
              vaults := vaultUpdate vault .DecreaseAccessKey now s.vaults }, .Deleted)
  else (s, .NotFound)

/-- `db::vault::delete` (db/vault.rs:256-317): when the vault row exists,
remove it and purge both child tables in the same write transaction;
otherwise report `NotFound` and change nothing. -/
def vault_delete (vault : String) (s : DbState) : DbState × DeleteVaultResult :=
  if (tfind? s.vaults vault).isSome then
    ({ vaults := tremove s.vaults vault,
       secrets := purgeTable s.secrets vault,
       access_keys := purgeTable s.access_keys vault }, .Deleted)
  else (s, .NotFound)

/-- The supported mutating operations reachable through the admin channel and
the data plane. -/
inductive AdminOp
  | insertSecret (vault name : String) (doc : SecretDocument) (now : String)
  | deleteSecret (vault name now : String)
  | insertAccessKey (vault key : String) (doc : AccessKeyDocument) (now : String)
  | deleteAccessKey (vault key now : String)
  | deleteVault (vault : String)

/-- Apply one operation (the state after the transaction commits; a failed
access-key insert leaves the state unchanged). -/
def applyOp (s : DbState) : AdminOp → DbState
  | .insertSecret v n doc now => (secret_insert v n doc now s).1
  | .deleteSecret v n now => (secret_delete v n now s).1
  | .insertAccessKey v k doc now => (access_insert v k doc now s).1
  | .deleteAccessKey v k now => (access_delete v k now s).1
  | .deleteVault v => (vault_delete v s).1

/-- Run a sequence of operations from the fresh store. -/
def runOps (ops : List AdminOp) : DbState := ops.foldl applyOp dbEmpty

/-- The cross-table invariant: distinct keys per table; every vault row's
counters equal the number of child rows keyed under it; and every child row
has a vault row (which makes the counter invariant inductive). -/
def Inv (s : DbState) : Prop :=
  (tkeys s.vaults).Nodup ∧ (tkeys s.secrets).Nodup ∧ (tkeys s.access_keys).Nodup ∧
  (∀ p ∈ s.vaults, p.2.secrets_count = (countIn s.secrets p.1 : Int) ∧
    p.2.access_keys_count = (countIn s.access_keys p.1 : Int)) ∧
  (∀ q ∈ s.secrets, (tfind? s.vaults q.1.1).isSome = true) ∧
  (∀ q ∈ s.access_keys, (tfind? s.vaults q.1.1).isSome = true)

theorem tfind?_vaultUpdate_self {t : VaultTable} {v : String} {u : UpdateVault}
    {now : String} :
    tfind? (vaultUpdate v u now t) v = some (match tfind? t v with
      | some d => applyUpdate u d
      | none => freshVaultDoc u now) := by
  unfold vaultUpdate
  cases tfind? t v <;> simp [tfind?_tinsert_self]

theorem tfind?_vaultUpdate_ne {t : VaultTable} {v w : String} {u : UpdateVault}
    {now : String} (h : w ≠ v) :
    tfind? (vaultUpdate v u now t) w = tfind? t w := by
  unfold vaultUpdate
  cases tfind? t v <;> exact tfind?_tinsert_ne h

theorem nodup_vaultUpdate {t : VaultTable} {v : String} {u : UpdateVault}
    {now : String} (h : (tkeys t).Nodup) :
    (tkeys (vaultUpdate v u now t)).Nodup := by
  unfold vaultUpdate
  cases tfind? t v <;> exact nodup_tinsert h

theorem isSome_vaultUpdate {t : VaultTable} {v w : String} {u : UpdateVault}
    {now : String} (h : (tfind? t w).isSome = true ∨ w = v) :
    (tfind? (vaultUpdate v u now t) w).isSome = true := by
  by_cases hw : w = v
  · rw [hw, tfind?_vaultUpdate_self]
    rfl
  · rw [tfind?_vaultUpdate_ne hw]
    rcases h with h | h
    · exact h
    · exact absurd h hw

theorem nodup_purge {δ : Type} {t : List ((String × String) × δ)} {v : String}
    (h : (tkeys t).Nodup) : (tkeys (purgeTable t v)).Nodup :=
  ((List.filter_sublist t).map Prod.fst).nodup h

theorem Inv_secret_insert (v n : String) (doc : SecretDocument) (now : String)
    {s : DbState} (h : Inv s) : Inv (secret_insert v n doc now s).1 := by
  obtain ⟨hnv, hns, hna, hrows, hcs, hca⟩ := h
  unfold secret_insert
  by_cases hex : (tfind? s.secrets (v, n)).isSome
  · rw [if_pos hex]
    dsimp only
    refine ⟨hnv, nodup_tinsert hns, hna, ?_, ?_, hca⟩
    · intro p hp
      rw [countIn_tinsert_isSome hex]
      exact hrows p hp
    · intro q hq
      rcases mem_tinsert_cases hq with h1 | h1
      · subst h1
        obtain ⟨d0, hd0⟩ := Option.isSome_iff_exists.mp hex
        exact hcs ((v, n), d0) (tfind?_mem hd0)
      · exact hcs q h1
  · rw [if_neg hex]
    dsimp only
    have hn : tfind? s.secrets (v, n) = none := by
      cases hfo : tfind? s.secrets (v, n)
      · rfl
      · rw [hfo] at hex; simp at hex
    refine ⟨nodup_vaultUpdate hnv, nodup_tinsert hns, hna, ?_, ?_, ?_⟩
    · intro p hp
      have hfp := mem_tfind? (nodup_vaultUpdate hnv) hp
      by_cases hv : p.1 = v
      · rw [hv, tfind?_vaultUpdate_self] at hfp
        injection hfp with hfp
        rw [hv]
        cases hold : tfind? s.vaults v with
        | some d =>
          rw [hold] at hfp
          obtain ⟨hd1, hd2⟩ := hrows (v, d) (tfind?_mem hold)
          dsimp only at hd1 hd2
          rw [← hfp]
          constructor
          · show d.secrets_count + 1 = _
            rw [countIn_tinsert_none hn,
              if_pos (show ((v, n) : String × String).1 = v from rfl)]
            omega
          · exact hd2
        | none =>
          rw [hold] at hfp
          have hzs : countIn s.secrets v = 0 := by
            refine countIn_eq_zero_of fun q hq he => ?_
            have := hcs q hq
            rw [he, hold] at this
            simp at this
          have hza : countIn s.access_keys v = 0 := by
            refine countIn_eq_zero_of fun q hq he => ?_
            have := hca q hq
            rw [he, hold] at this
            simp at this
          rw [← hfp]
          constructor
          · show (1 : Int) = _
            rw [countIn_tinsert_none hn,
              if_pos (show ((v, n) : String × String).1 = v from rfl)]
            omega
          · show (0 : Int) = _
            rw [hza]
            rfl
      · rw [tfind?_vaultUpdate_ne hv] at hfp
        have hpmem : p ∈ s.vaults := by
          have := tfind?_mem hfp
          rwa [Prod.mk.eta] at this
        obtain ⟨hd1, hd2⟩ := hrows p hpmem
        constructor
        · rw [countIn_tinsert_none hn]
          have hne : ¬ (((v, n) : String × String).1 = p.1) := fun he => hv (by rw [← he])
          rw [if_neg hne]
          omega
        · exact hd2
    · intro q hq
      rcases mem_tinsert_cases hq with h1 | h1
      · subst h1
        exact isSome_vaultUpdate (Or.inr rfl)
      · exact isSome_vaultUpdate (Or.inl (hcs q h1))
    · intro q hq
      exact isSome_vaultUpdate (Or.inl (hca q hq))

theorem Inv_secret_delete (v n now : String) {s : DbState} (h : Inv s) :
    Inv (secret_delete v n now s).1 := by
  obtain ⟨hnv, hns, hna, hrows, hcs, hca⟩ := h
  unfold secret_delete
  by_cases hex : (tfind? s.secrets (v, n)).isSome
  · rw [if_pos hex]
    dsimp only
    obtain ⟨d0, hd0⟩ := Option.isSome_iff_exists.mp hex
    refine ⟨nodup_vaultUpdate hnv, nodup_tremove hns, hna, ?_, ?_, ?_⟩
    · intro p hp
      have hfp := mem_tfind? (nodup_vaultUpdate hnv) hp
      by_cases hv : p.1 = v
      · rw [hv, tfind?_vaultUpdate_self] at hfp
        injection hfp with hfp
        rw [hv]
        cases hold : tfind? s.vaults v with
        | some d =>
          rw [hold] at hfp
          obtain ⟨hd1, hd2⟩ := hrows (v, d) (tfind?_mem hold)
          dsimp only at hd1 hd2
          rw [← hfp]
          constructor
          · show d.secrets_count - 1 = _
            dsimp only
            have hc := countIn_tremove (v := v) hns hd0
            rw [if_pos (show ((v, n) : String × String).1 = v from rfl)] at hc
            omega
          · exact hd2
        | none =>
          exfalso
          have := hcs ((v, n), d0) (tfind?_mem hd0)
          rw [show (((v, n), d0) : (String × String) × SecretDocument).1.1 = v
            from rfl, hold] at this
          simp at this
      · rw [tfind?_vaultUpdate_ne hv] at hfp
        have hpmem : p ∈ s.vaults := by
          have := tfind?_mem hfp
          rwa [Prod.mk.eta] at this
        obtain ⟨hd1, hd2⟩ := hrows p hpmem
        constructor
        · have hc := countIn_tremove (v := p.1) hns hd0
          have hne : ¬ (((v, n) : String × String).1 = p.1) := fun he => hv (by rw [← he])
          rw [if_neg hne] at hc
          dsimp only
          omega
        · exact hd2
    · intro q hq
      exact isSome_vaultUpdate (Or.inl (hcs q (mem_tremove hq)))
    · intro q hq
      exact isSome_vaultUpdate (Or.inl (hca q hq))
  · rw [if_neg hex]
    exact ⟨hnv, hns, hna, hrows, hcs, hca⟩

theorem Inv_access_insert (v k : String) (doc : AccessKeyDocument) (now : String)
    {s : DbState} (h : Inv s) : Inv (access_insert v k doc now s).1 := by
  obtain ⟨hnv, hns, hna, hrows, hcs, hca⟩ := h
  unfold access_insert
  by_cases hex : (tfind? s.access_keys (v, k)).isSome
  · rw [if_pos hex]
    exact ⟨hnv, hns, hna, hrows, hcs, hca⟩
  · rw [if_neg hex]
    dsimp only
    have hn : tfind? s.access_keys (v, k) = none := by
      cases hfo : tfind? s.access_keys (v, k)
      · rfl
      · rw [hfo] at hex; simp at hex
    refine ⟨nodup_vaultUpdate hnv, hns, nodup_tinsert hna, ?_, ?_, ?_⟩
    · intro p hp
      have hfp := mem_tfind? (nodup_vaultUpdate hnv) hp
      by_cases hv : p.1 = v
      · rw [hv, tfind?_vaultUpdate_self] at hfp
        injection hfp with hfp
        rw [hv]
        cases hold : tfind? s.vaults v with
        | some d =>
          rw [hold] at hfp
          obtain ⟨hd1, hd2⟩ := hrows (v, d) (tfind?_mem hold)
          dsimp only at hd1 hd2
          rw [← hfp]
          constructor
          · exact hd1
          · show d.access_keys_count + 1 = _
            rw [countIn_tinsert_none hn,
              if_pos (show ((v, k) : String × String).1 = v from rfl)]
            omega
        | none =>
          rw [hold] at hfp
          have hzs : countIn s.secrets v = 0 := by
            refine countIn_eq_zero_of fun q hq he => ?_
            have := hcs q hq
            rw [he, hold] at this
            simp at this
          have hza : countIn s.access_keys v = 0 := by
            refine countIn_eq_zero_of fun q hq he => ?_
            have := hca q hq
            rw [he, hold] at this
            simp at this
          rw [← hfp]
          constructor
          · show (0 : Int) = _
            rw [hzs]
            rfl
          · show (1 : Int) = _
            rw [countIn_tinsert_none hn,
              if_pos (show ((v, k) : String × String).1 = v from rfl)]
            omega
      · rw [tfind?_vaultUpdate_ne hv] at hfp
        have hpmem : p ∈ s.vaults := by
          have := tfind?_mem hfp
          rwa [Prod.mk.eta] at this
        obtain ⟨hd1, hd2⟩ := hrows p hpmem
        constructor
        · exact hd1
        · rw [countIn_tinsert_none hn]
          have hne : ¬ (((v, k) : String × String).1 = p.1) := fun he => hv (by rw [← he])
          rw [if_neg hne]
          omega
    · intro q hq
      exact isSome_vaultUpdate (Or.inl (hcs q hq))
    · intro q hq
      rcases mem_tinsert_cases hq with h1 | h1
      · subst h1
        exact isSome_vaultUpdate (Or.inr rfl)
      · exact isSome_vaultUpdate (Or.inl (hca q h1))

theorem Inv_access_delete (v k now : String) {s : DbState} (h : Inv s) :
    Inv (access_delete v k now s).1 := by
  obtain ⟨hnv, hns, hna, hrows, hcs, hca⟩ := h
  unfold access_delete
  by_cases hex : (tfind? s.access_keys (v, k)).isSome
  · rw [if_pos hex]
    dsimp only
    obtain ⟨d0, hd0⟩ := Option.isSome_iff_exists.mp hex
    refine ⟨nodup_vaultUpdate hnv, hns, nodup_tremove hna, ?_, ?_, ?_⟩
    · intro p hp
      have hfp := mem_tfind? (nodup_vaultUpdate hnv) hp
      by_cases hv : p.1 = v
      · rw [hv, tfind?_vaultUpdate_self] at hfp
        injection hfp with hfp
        rw [hv]
        cases hold : tfind? s.vaults v with
        | some d =>
          rw [hold] at hfp
          obtain ⟨hd1, hd2⟩ := hrows (v, d) (tfind?_mem hold)
          dsimp only at hd1 hd2
          rw [← hfp]
          constructor
          · exact hd1
          · show d.access_keys_count - 1 = _
            dsimp only
            have hc := countIn_tremove (v := v) hna hd0
            rw [if_pos (show ((v, k) : String × String).1 = v from rfl)] at hc
            omega
        | none =>
          exfalso
          have := hca ((v, k), d0) (tfind?_mem hd0)
          rw [show (((v, k), d0) : (String × String) × AccessKeyDocument).1.1 = v
            from rfl, hold] at this
          simp at this
      · rw [tfind?_vaultUpdate_ne hv] at hfp
        have hpmem : p ∈ s.vaults := by
          have := tfind?_mem hfp
          rwa [Prod.mk.eta] at this
        obtain ⟨hd1, hd2⟩ := hrows p hpmem
        constructor
        · exact hd1
        · have hc := countIn_tremove (v := p.1) hna hd0
          have hne : ¬ (((v, k) : String × String).1 = p.1) := fun he => hv (by rw [← he])
          rw [if_neg hne] at hc
          dsimp only
          omega
    · intro q hq
      exact isSome_vaultUpdate (Or.inl (hcs q hq))
    · intro q hq
      exact isSome_vaultUpdate (Or.inl (hca q (mem_tremove hq)))
  · rw [if_neg hex]
    exact ⟨hnv, hns, hna, hrows, hcs, hca⟩

theorem Inv_vault_delete (v : String) {s : DbState} (h : Inv s) :
    Inv (vault_delete v s).1 := by
  obtain ⟨hnv, hns, hna, hrows, hcs, hca⟩ := h
  unfold vault_delete
  by_cases hex : (tfind? s.vaults v).isSome
  · rw [if_pos hex]
    dsimp only
    refine ⟨nodup_tremove hnv, nodup_purge hns, nodup_purge hna, ?_, ?_, ?_⟩
    · intro p hp
      have hfp := mem_tfind? (nodup_tremove hnv) hp
      have hv : p.1 ≠ v := by
        intro he
        rw [he, tfind?_tremove_self] at hfp
        cases hfp
      rw [tfind?_tremove_ne hv] at hfp
      have hpmem : p ∈ s.vaults := by
        have := tfind?_mem hfp
        rwa [Prod.mk.eta] at this
      obtain ⟨hd1, hd2⟩ := hrows p hpmem
      exact ⟨by rw [countIn_purge_ne hv]; exact hd1,
        by rw [countIn_purge_ne hv]; exact hd2⟩
    · intro q hq
      obtain ⟨hq1, hq2⟩ := mem_purge hq
      rw [tfind?_tremove_ne hq2]
      exact hcs q hq1
    · intro q hq
      obtain ⟨hq1, hq2⟩ := mem_purge hq
      rw [tfind?_tremove_ne hq2]
      exact hca q hq1
  · rw [if_neg hex]
    exact ⟨hnv, hns, hna, hrows, hcs, hca⟩

theorem Inv_applyOp {s : DbState} (op : AdminOp) (h : Inv s) :
    Inv (applyOp s op) := by
  cases op with
  | insertSecret v n doc now => exact Inv_secret_insert v n doc now h
  | deleteSecret v n now => exact Inv_secret_delete v n now h
  | insertAccessKey v k doc now => exact Inv_access_insert v k doc now h
  | deleteAccessKey v k now => exact Inv_access_delete v k now h
  | deleteVault v => exact Inv_vault_delete v h

theorem Inv_dbEmpty : Inv dbEmpty := by
  refine ⟨List.nodup_nil, List.nodup_nil, List.nodup_nil, ?_, ?_, ?_⟩ <;>
    intro p hp <;> cases hp

theorem Inv_runOps (ops : List AdminOp) : Inv (runOps ops) := by
  have haux : ∀ (l : List AdminOp) (s : DbState), Inv s → Inv (l.foldl applyOp s) := by
    intro l
    induction l with
    | nil => intro s hs; exact hs
    | cons op rest ih =>
      intro s hs
      exact ih (applyOp s op) (Inv_applyOp op hs)
  exact haux ops dbEmpty Inv_dbEmpty

/-- C5.  Across any sequence of supported operations from a fresh store,
every vault row's `secrets_count` equals the number of secret rows keyed
under it and its `access_keys_count` the number of access-key rows; moreover
insert of a previously-absent child increments the matching counter, delete
of a present child decrements it, and an update of an existing secret key
leaves the vaults table untouched - each in the same transaction (one
transition) as the child mutation. -/
theorem vault_counters_invariant :
    (∀ ops : List AdminOp, Inv (runOps ops)) ∧
    (∀ (s : DbState) (v n : String) (doc : SecretDocument) (now : String),
      tfind? s.secrets (v, n) = none →
        (secret_insert v n doc now s).2 = .Inserted ∧
        (tfind? (secret_insert v n doc now s).1.vaults v).map
            (fun d => d.secrets_count) =
          some (((tfind? s.vaults v).map (fun d => d.secrets_count)).getD 0 + 1)) ∧
    (∀ (s : DbState) (v n : String) (doc : SecretDocument) (now : String)
        (d0 : SecretDocument), tfind? s.secrets (v, n) = some d0 →
        (secret_insert v n doc now s).2 = .Updated ∧
        (secret_insert v n doc now s).1.vaults = s.vaults) ∧
    (∀ (s : DbState) (v n now : String) (d : VaultDocument),
      (tfind? s.secrets (v, n)).isSome = true → tfind? s.vaults v = some d →
        (secret_delete v n now s).2 = .Deleted ∧
        (tfind? (secret_delete v n now s).1.vaults v).map
            (fun x => x.secrets_count) = some (d.secrets_count - 1)) ∧
    (∀ (s : DbState) (v k : String) (doc : AccessKeyDocument) (now : String),
      tfind? s.access_keys (v, k) = none →
        (access_insert v k doc now s).2 = true ∧
        (tfind? (access_insert v k doc now s).1.vaults v).map
            (fun d => d.access_keys_count) =
          some (((tfind? s.vaults v).map (fun d => d.access_keys_count)).getD 0 + 1)) ∧
    (∀ (s : DbState) (v k now : String) (d : VaultDocument),
      (tfind? s.access_keys (v, k)).isSome = true → tfind? s.vaults v = some d →
        (access_delete v k now s).2 = .Deleted ∧
        (tfind? (access_delete v k now s).1.vaults v).map
            (fun x => x.access_keys_count) = some (d.access_keys_count - 1)) := by
  refine ⟨Inv_runOps, ?_, ?_, ?_, ?_, ?_⟩
  · intro s v n doc now hn
    have hcond : ¬ (tfind? s.secrets (v, n)).isSome = true := by simp [hn]
    have hres : (secret_insert v n doc now s).2 = .Inserted := by
      unfold secret_insert
      rw [if_neg hcond]
    have hvaults : (secret_insert v n doc now s).1.vaults =
        vaultUpdate v .IncreaseSecrets now s.vaults := by
      unfold secret_insert
      rw [if_neg hcond]
    refine ⟨hres, ?_⟩
    rw [hvaults, tfind?_vaultUpdate_self]
    cases hold : tfind? s.vaults v with
    | some d => simp [applyUpdate]
    | none => simp [freshVaultDoc]
  · intro s v n doc now d0 hd0
    have hcond : (tfind? s.secrets (v, n)).isSome = true := by simp [hd0]
    constructor
    · unfold secret_insert
      rw [if_pos hcond]
    · unfold secret_insert
      rw [if_pos hcond]
  · intro s v n now d hex hd
    have hres : (secret_delete v n now s).2 = .Deleted := by
      unfold secret_delete
      rw [if_pos hex]
    have hvaults : (secret_delete v n now s).1.vaults =
        vaultUpdate v .DecreaseSecrets now s.vaults := by
      unfold secret_delete
      rw [if_pos hex]
    refine ⟨hres, ?_⟩
    rw [hvaults, tfind?_vaultUpdate_self, hd]
    simp [applyUpdate]
  · intro s v k doc now hn
    have hcond : ¬ (tfind? s.access_keys (v, k)).isSome = true := by simp [hn]
    have hres : (access_insert v k doc now s).2 = true := by
      unfold access_insert
      rw [if_neg hcond]
    have hvaults : (access_insert v k doc now s).1.vaults =
        vaultUpdate v .IncreaseAccessKey now s.vaults := by
      unfold access_insert
      rw [if_neg hcond]
    refine ⟨hres, ?_⟩
    rw [hvaults, tfind?_vaultUpdate_self]
    cases hold : tfind? s.vaults v with
    | some d => simp [applyUpdate]
    | none => simp [freshVaultDoc]
  · intro s v k now d hex hd
    have hres : (access_delete v k now s).2 = .Deleted := by
      unfold access_delete
      rw [if_pos hex]
    have hvaults : (access_delete v k now s).1.vaults =
        vaultUpdate v .DecreaseAccessKey now s.vaults := by
      unfold access_delete
      rw [if_pos hex]
    refine ⟨hres, ?_⟩
    rw [hvaults, tfind?_vaultUpdate_self, hd]
    simp [applyUpdate]

/-- A small populated state used by the data-model witnesses: one vault row
with one secret, counters matching. -/
def witnessState : DbState :=
  { vaults := [("v", { created := "t0", secrets_count := 1, access_keys_count := 0 })]
    secrets := [(("v", "a"), { created := "t0", secret := [1] })]
    access_keys := [] }

/-- C5 witness: the theorem applied to a concrete operation sequence and to
concrete insert/delete steps on `witnessState`, with every hypothesis checked
by evaluation. -/
theorem vault_counters_invariant_witness :
    Inv (runOps [AdminOp.insertSecret "v" "a" ⟨"t0", [1]⟩ "t0",
      AdminOp.insertAccessKey "v" "K" witnessDoc "t0"]) ∧
    ((secret_insert "v" "b" ⟨"t1", [2]⟩ "t1" witnessState).2 = .Inserted ∧
      (tfind? (secret_insert "v" "b" ⟨"t1", [2]⟩ "t1" witnessState).1.vaults "v").map
          (fun d => d.secrets_count) =
        some (((tfind? witnessState.vaults "v").map (fun d => d.secrets_count)).getD 0 + 1)) ∧
    ((secret_delete "v" "a" "t1" witnessState).2 = .Deleted ∧
      (tfind? (secret_delete "v" "a" "t1" witnessState).1.vaults "v").map
          (fun x => x.secrets_count) =
        some ((1 : Int) - 1)) :=
  ⟨vault_counters_invariant.1 _,
   vault_counters_invariant.2.1 witnessState "v" "b" ⟨"t1", [2]⟩ "t1" (by decide),
   vault_counters_invariant.2.2.2.1 witnessState "v" "a" "t1"
     { created := "t0", secrets_count := 1, access_keys_count := 0 }
     (by decide) (by decide)⟩

/-- C6.  When the vault row exists, `DeleteVault` reports `Deleted` and
afterwards the vault row is gone and no secret row or access-key row keyed
under the vault remains (row removal and both purges being the same write
transaction, i.e. one transition of the model); when the row does not exist
it reports `NotFound` and the state is unchanged. -/
theorem delete_vault_purges_children (s : DbState) (v : String) :
    ((tfind? s.vaults v).isSome = true →
      (vault_delete v s).2 = .Deleted ∧
      tfind? (vault_delete v s).1.vaults v = none ∧
      (∀ q ∈ (vault_delete v s).1.secrets, q.1.1 ≠ v) ∧
      (∀ q ∈ (vault_delete v s).1.access_keys, q.1.1 ≠ v)) ∧
    (tfind? s.vaults v = none →
      (vault_delete v s).2 = .NotFound ∧ (vault_delete v s).1 = s) := by
  constructor
  · intro hex
    have hbranch : vault_delete v s =
        ({ vaults := tremove s.vaults v,
           secrets := purgeTable s.secrets v,
           access_keys := purgeTable s.access_keys v }, .Deleted) := by
      unfold vault_delete
      rw [if_pos hex]
    rw [hbranch]
    refine ⟨rfl, tfind?_tremove_self, ?_, ?_⟩ <;>
      intro q hq <;> exact (mem_purge hq).2
  · intro hn
    have hbranch : vault_delete v s = (s, .NotFound) := by
      unfold vault_delete
      rw [if_neg (by simp [hn])]
    rw [hbranch]
    exact ⟨rfl, rfl⟩

/-- C6 witness: the theorem applied to `witnessState` - deleting the
existing vault `v` purges it, deleting the absent vault `w` is a no-op. -/
theorem delete_vault_purges_children_witness :
    ((vault_delete "v" witnessState).2 = .Deleted ∧
      tfind? (vault_delete "v" witnessState).1.vaults "v" = none ∧
      (∀ q ∈ (vault_delete "v" witnessState).1.secrets, q.1.1 ≠ "v") ∧
      (∀ q ∈ (vault_delete "v" witnessState).1.access_keys, q.1.1 ≠ "v")) ∧
    ((vault_delete "w" witnessState).2 = .NotFound ∧
      (vault_delete "w" witnessState).1 = witnessState) :=
  ⟨(delete_vault_purges_children witnessState "v").1 (by decide),
   (delete_vault_purges_children witnessState "w").2 (by decide)⟩

/-- C10.  When `vault::update` is asked to decrement a counter while the
vault row is absent, it writes a fresh row with both counters 0 and the
supplied current timestamp (rather than failing or leaving the table
unchanged); a decrement on an existing row subtracts 1 from the stored
counter with no clamping at zero.  In particular deleting an existing child
secret while no vault row exists materialises the `(now, 0, 0)` row. -/
theorem vault_update_decrement_behavior :
    (∀ (t : VaultTable) (v now : String), tfind? t v = none →
      tfind? (vaultUpdate v .DecreaseSecrets now t) v =
        some { created := now, secrets_count := 0, access_keys_count := 0 } ∧
      tfind? (vaultUpdate v .DecreaseAccessKey now t) v =
        some { created := now, secrets_count := 0, access_keys_count := 0 }) ∧
    (∀ (t : VaultTable) (v now : String) (d : VaultDocument),
      tfind? t v = some d →
      tfind? (vaultUpdate v .DecreaseSecrets now t) v =
        some { d with secrets_count := d.secrets_count - 1 }) ∧
    (∀ (s : DbState) (v n now : String) (d0 : SecretDocument),
      tfind? s.vaults v = none → tfind? s.secrets (v, n) = some d0 →
      tfind? (secret_delete v n now s).1.vaults v =
        some { created := now, secrets_count := 0, access_keys_count := 0 }) := by
  refine ⟨?_, ?_, ?_⟩
  · intro t v now hn
    constructor <;>
      · unfold vaultUpdate
        rw [hn, tfind?_tinsert_self]
        rfl
  · intro t v now d hd
    unfold vaultUpdate
    rw [hd, tfind?_tinsert_self]
    rfl
  · intro s v n now d0 hn hd0
    have hvaults : (secret_delete v n now s).1.vaults =
        vaultUpdate v .DecreaseSecrets now s.vaults := by
      unfold secret_delete
      rw [if_pos (by simp [hd0])]
    rw [hvaults]
    unfold vaultUpdate
    rw [hn, tfind?_tinsert_self]
    rfl

/-- A state with an orphan secret row and no vault row, as reachable only
outside the supported APIs; used to exercise the C10 behaviour. -/
def orphanState : DbState :=
  { vaults := []
    secrets := [(("v", "a"), { created := "t0", secret := [1] })]
    access_keys := [] }

/-- C10 witness: the theorem applied at concrete tables - a decrement on the
missing vault `v` creates the `("t1", 0, 0)` row, a decrement on a row whose
counter is already 0 yields `-1` (no clamping), and deleting the orphan
secret materialises the fresh row. -/
theorem vault_update_decrement_behavior_witness :
    (tfind? (vaultUpdate "v" .DecreaseSecrets "t1" []) "v" =
      some { created := "t1", secrets_count := 0, access_keys_count := 0 }) ∧
    (tfind? (vaultUpdate "w" .DecreaseSecrets "t1"
        [("w", { created := "t0", secrets_count := 0, access_keys_count := 0 })]) "w" =
      some { created := "t0", secrets_count := -1, access_keys_count := 0 }) ∧
    (tfind? (secret_delete "v" "a" "t1" orphanState).1.vaults "v" =
      some { created := "t1", secrets_count := 0, access_keys_count := 0 }) :=
  ⟨(vault_update_decrement_behavior.1 [] "v" "t1" (by decide)).1,
   vault_update_decrement_behavior.2.1
     [("w", { created := "t0", secrets_count := 0, access_keys_count := 0 })]
     "w" "t1" { created := "t0", secrets_count := 0, access_keys_count := 0 } (by decide),
   vault_update_decrement_behavior.2.2 orphanState "v" "a" "t1"
     { created := "t0", secret := [1] } (by decide) (by decide)⟩

/-! ### The data-plane HTTP handlers

The four handlers of `vault/{get,insert,delete,list}.rs` embed as functions
of: the authorization outcome of `initialize_request` (`some Authorized`,
`some Unauthorized`, or `none` for an internal authorization error), the
request data, a `dbFail` flag standing for a storage-layer failure of the
redb call the handler makes (a failed transaction leaves the state
unchanged), and the store state.  Each response records its HTTP status, the
returned body where one is modelled, and whether `access_keys::delay().await`
ran before the response was written.  The `list` response body (a JSON
listing) is not modelled; its serialization-failure 500 branch behaves like
the `dbFail` branch with respect to status and delay. -/

/-- An HTTP response of the data plane: status code, whether the
constant-time delay preceded it, and the body where modelled. -/
structure DataPlaneResponse where
  status : Nat
  delayed : Bool
  body : Option Bytes
deriving DecidableEq

/-- `req_get` (vault/get.rs:20-125): 401 and auth-error 500 delay; then the
secret is looked up (404 when absent), base64-decoded (framing elided) and
decrypted - both failure 500s respond without delay. -/
def req_get (auth : Option CommonAccessResult) (vault name : String)
    (dbFail : Bool) (s : DbState) : DataPlaneResponse :=
  match auth with
  | some .Authorized =>
    if dbFail then ⟨500, false, none⟩
    else
      match tfind? s.secrets (vault, name) with
      | none => ⟨404, false, none⟩
      | some doc =>
        match decrypt doc.secret with
        | some value => ⟨200, false, some value⟩
        | none => ⟨500, false, none⟩
  | some .Unauthorized => ⟨401, true, none⟩
  | none => ⟨500, true, none⟩

/-- `insert_secret` (vault/insert.rs:20-131), the shared body of POST and
PUT: 401/auth-500 delay; empty body → 422; `secrets::encrypt` failure → 500
without delay; then `db::secret::insert` upserts (201 inserted, 200
updated), a storage failure being a delay-less 500. -/
def insert_secret (auth : Option CommonAccessResult) (vault name : String)
    (body : Bytes) (now : String) (dbFail : Bool) (s : DbState) :
    DataPlaneResponse × DbState :=
  match auth with
  | some .Authorized =>
    if body = [] then (⟨422, false, none⟩, s)
    else
      match encrypt body with
      | none => (⟨500, false, none⟩, s)
      | some ct =>
        if dbFail then (⟨500, false, none⟩, s)
        else
          match secret_insert vault name ⟨now, ct⟩ now s with
          | (s', .Inserted) => (⟨201, false, none⟩, s')
          | (s', .Updated) => (⟨200, false, none⟩, s')
  | some .Unauthorized => (⟨401, true, none⟩, s)
  | none => (⟨500, true, none⟩, s)

/-- `req_delete` (vault/delete.rs): 401/auth-500 delay; then
`db::secret::delete` (200 deleted, 404 absent, delay-less 500 on storage
failure). -/
def req_delete (auth : Option CommonAccessResult) (vault name now : String)
    (dbFail : Bool) (s : DbState) : DataPlaneResponse × DbState :=
  match auth with
  | some .Authorized =>
    if dbFail then (⟨500, false, none⟩, s)
    else
      match secret_delete vault name now s with
      | (s', .Deleted) => (⟨200, false, none⟩, s')
      | (s', .NotFound) => (⟨404, false, none⟩, s')
  | some .Unauthorized => (⟨401, true, none⟩, s)
  | none => (⟨500, true, none⟩, s)

/-- `req_list` (vault/list.rs): 401/auth-500 delay; then the listing (200),
with a delay-less 500 on storage (or serialization) failure. -/
def req_list (auth : Option CommonAccessResult) (vault : String)
    (dbFail : Bool) (s : DbState) : DataPlaneResponse :=
  match auth with
  | some .Authorized =>
    if dbFail then ⟨500, false, none⟩ else ⟨200, false, none⟩
  | some .Unauthorized => ⟨401, true, none⟩
  | none => ⟨500, true, none⟩

/-- C4 counterexample.  The claim says every 500 on the data plane is
preceded by the delay; but an authorized GET that then hits a storage
failure, and an authorized insert whose encryption or storage step fails,
return 500 with no delay. -/
theorem post_auth_error_not_delayed :
    req_get (some .Authorized) "v" "a" true dbEmpty = ⟨500, false, none⟩ ∧
    (insert_secret (some .Authorized) "v" "a" [1] "t" true dbEmpty).1 =
      ⟨500, false, none⟩ ∧
    (insert_secret (some .Authorized) "v" "a" (List.replicate 486 0) "t" false
      dbEmpty).1 = ⟨500, false, none⟩ :=
  ⟨rfl, rfl, rfl⟩

/-- C4 amended.  On the data plane the delay precedes exactly the
authorization-phase outcomes: every 401, and the 500 produced when the
authorization check itself errors.  All later failure branches - storage,
decode/decrypt, serialization - return 500 with no delay, and authorized
paths never delay. -/
theorem delay_exactly_on_auth_failures (vault name now : String) (body : Bytes)
    (dbFail : Bool) (s : DbState) :
    (req_get (some .Unauthorized) vault name dbFail s = ⟨401, true, none⟩) ∧
    (req_get none vault name dbFail s = ⟨500, true, none⟩) ∧
    ((req_get (some .Authorized) vault name dbFail s).delayed = false) ∧
    ((insert_secret (some .Unauthorized) vault name body now dbFail s).1 =
      ⟨401, true, none⟩) ∧
    ((insert_secret none vault name body now dbFail s).1 = ⟨500, true, none⟩) ∧
    ((insert_secret (some .Authorized) vault name body now dbFail s).1.delayed =
      false) ∧
    ((req_delete (some .Unauthorized) vault name now dbFail s).1 =
      ⟨401, true, none⟩) ∧
    ((req_delete none vault name now dbFail s).1 = ⟨500, true, none⟩) ∧
    ((req_delete (some .Authorized) vault name now dbFail s).1.delayed = false) ∧
    (req_list (some .Unauthorized) vault dbFail s = ⟨401, true, none⟩) ∧
    (req_list none vault dbFail s = ⟨500, true, none⟩) ∧
    ((req_list (some .Authorized) vault dbFail s).delayed = false) := by
  refine ⟨rfl, rfl, ?_, rfl, rfl, ?_, rfl, rfl, ?_, rfl, rfl, ?_⟩
  · cases dbFail with
    | true => rfl
    | false =>
      cases hf : tfind? s.secrets (vault, name) with
      | none => simp [req_get, hf]
      | some doc =>
        cases hd : decrypt doc.secret with
        | none => simp [req_get, hf, hd]
        | some value => simp [req_get, hf, hd]
  · by_cases hb : body = []
    · simp [insert_secret, hb]
    · cases he : encrypt body with
      | none => simp [insert_secret, hb, he]
      | some ct =>
        cases dbFail with
        | true => simp [insert_secret, hb, he]
        | false =>
          rcases hr : secret_insert vault name ⟨now, ct⟩ now s with ⟨s', r⟩
          cases r <;> simp [insert_secret, hb, he, hr]
  · cases dbFail with
    | true => rfl
    | false =>
      rcases hr : secret_delete vault name now s with ⟨s', r⟩
      cases r <;> simp [req_delete, hr]
  · cases dbFail with
    | true => rfl
    | false => rfl

/-- C8 counterexample.  The claim says an authorized POST/PUT with a
non-empty body and a previously-absent key yields 201; but a fresh 486-byte
body yields 500 (the envelope encryption fails, see C1) and leaves the
secrets table unchanged. -/
theorem insert_large_body_returns_500 :
    tfind? dbEmpty.secrets ("v", "a") = none ∧
    (insert_secret (some .Authorized) "v" "a" (List.replicate 486 0) "t" false
      dbEmpty) = (⟨500, false, none⟩, dbEmpty) :=
  ⟨rfl, rfl⟩

/-- C8 amended.  For an authorized POST/PUT whose storage layer does not
fail: an empty body yields 422 with no change; a non-empty body whose
envelope encryption fails yields 500 with no change; a non-empty body that
encrypts, with a previously-absent key, yields 201 and stores the
ciphertext; with a pre-existing key it yields 200 and replaces the stored
document. -/
theorem insert_secret_status_mapping (vault name now : String) (body : Bytes)
    (s : DbState) :
    (body = [] →
      insert_secret (some .Authorized) vault name body now false s =
        (⟨422, false, none⟩, s)) ∧
    (body ≠ [] → encrypt body = none →
      insert_secret (some .Authorized) vault name body now false s =
        (⟨500, false, none⟩, s)) ∧
    (body ≠ [] → (encrypt body).isSome = true →
      tfind? s.secrets (vault, name) = none →
      (insert_secret (some .Authorized) vault name body now false s).1 =
        ⟨201, false, none⟩ ∧
      tfind? (insert_secret (some .Authorized) vault name body now false
          s).2.secrets (vault, name) =
        (encrypt body).map fun ct => { created := now, secret := ct }) ∧
    (body ≠ [] → (encrypt body).isSome = true →
      (tfind? s.secrets (vault, name)).isSome = true →
      (insert_secret (some .Authorized) vault name body now false s).1 =
        ⟨200, false, none⟩ ∧
      tfind? (insert_secret (some .Authorized) vault name body now false
          s).2.secrets (vault, name) =
        (encrypt body).map fun ct => { created := now, secret := ct }) := by
  refine ⟨?_, ?_, ?_, ?_⟩
  · intro hb
    simp [insert_secret, hb]
  · intro hb he
    simp [insert_secret, hb, he]
  · intro hb he hn
    obtain ⟨ct, hct⟩ := Option.isSome_iff_exists.mp he
    have hins : secret_insert vault name ⟨now, ct⟩ now s =
        ({ s with secrets := tinsert s.secrets (vault, name) ⟨now, ct⟩,
                  vaults := vaultUpdate vault .IncreaseSecrets now s.vaults },
          .Inserted) := by
      unfold secret_insert
      rw [if_neg (by simp [hn])]
    constructor
    · simp [insert_secret, hb, hct, hins]
    · simp [insert_secret, hb, hct, hins, tfind?_tinsert_self]
  · intro hb he hsome
    obtain ⟨ct, hct⟩ := Option.isSome_iff_exists.mp he
    have hins : secret_insert vault name ⟨now, ct⟩ now s =
        ({ s with secrets := tinsert s.secrets (vault, name) ⟨now, ct⟩ },
          .Updated) := by
      unfold secret_insert
      rw [if_pos hsome]
    constructor
    · simp [insert_secret, hb, hct, hins]
    · simp [insert_secret, hb, hct, hins, tfind?_tinsert_self]

/-- C8 witness: the theorem applied at concrete requests - empty body 422,
oversize body 500, fresh key 201, existing key 200 - with every hypothesis
checked by evaluation. -/
theorem insert_secret_status_mapping_witness :
    (insert_secret (some .Authorized) "v" "a" [] "t1" false witnessState =
      (⟨422, false, none⟩, witnessState)) ∧
    (insert_secret (some .Authorized) "v" "a" (List.replicate 486 0) "t1" false
      witnessState = (⟨500, false, none⟩, witnessState)) ∧
    ((insert_secret (some .Authorized) "v" "b" [1, 2, 3] "t1" false
        witnessState).1 = ⟨201, false, none⟩) ∧
    ((insert_secret (some .Authorized) "v" "a" [1, 2, 3] "t1" false
        witnessState).1 = ⟨200, false, none⟩) :=
  ⟨(insert_secret_status_mapping "v" "a" "t1" [] witnessState).1 rfl,
   (insert_secret_status_mapping "v" "a" "t1" (List.replicate 486 0)
     witnessState).2.1 (by decide) (by rfl),
   ((insert_secret_status_mapping "v" "b" "t1" [1, 2, 3] witnessState).2.2.1
     (by decide) (by rfl) (by decide)).1,
   ((insert_secret_status_mapping "v" "a" "t1" [1, 2, 3] witnessState).2.2.2
     (by decide) (by rfl) (by decide)).1⟩

/-! ### Size constants -/

/-- `MAXIMUM_DATA_SIZE` (cli/src/cmd/secret/insert.rs:27), the CLI's cap on
a secret payload: `128 * 1042 * 1024 - 1024` (with the `1042` typo). -/
def MAXIMUM_DATA_SIZE : Nat := 128 * 1042 * 1024 - 1024

/-- `MAXIMUM_FRAME_SIZE` (vault/src/api.rs:26), the server's maximum
aggregated inbound WebSocket frame: `128 * 1042 * 1024`. -/
def MAXIMUM_FRAME_SIZE : Nat := 128 * 1042 * 1024

/-- C9 counterexample.  The claim says the server's maximum aggregated
WebSocket frame size equals the CLI's `MAXIMUM_DATA_SIZE`; the two constants
differ (the server omits the `- 1024`). -/
theorem frame_size_ne_data_size : MAXIMUM_FRAME_SIZE ≠ MAXIMUM_DATA_SIZE := by
  decide

/-- C9 amended.  `MAXIMUM_DATA_SIZE = 128 * 1042 * 1024 - 1024 = 136576000`
on the CLI; the server's `MAXIMUM_FRAME_SIZE` shares the `1042` typo but
omits the `- 1024`, so it is exactly 1024 bytes larger: 136577024. -/
theorem frame_size_off_by_1024 :
    MAXIMUM_DATA_SIZE = 136576000 ∧ MAXIMUM_FRAME_SIZE = 136577024 ∧
    MAXIMUM_FRAME_SIZE = MAXIMUM_DATA_SIZE + 1024 := by
  decide

end Vaulty
